import Mathlib

/-!
Verification of the in-process message-dispatch core of tidblabs/tikv:
the priority-ordered mpmc channel (`components/tikv_util/src/mpsc/priority_queue.rs`)
and the basic mailbox (`components/batch-system/src/mailbox.rs`).

Modelling conventions:
* The channel state is embedded as an explicit record (`PQState`); the
  crossbeam `SkipMap` is modelled as a list of key/cell pairs kept sorted by
  the key order, with insertion replacing an entry whose key compares equal.
* The `u64`/`usize` counters (`sequencer`, `senders`, `receivers`) are
  modelled as unbounded naturals: the sequencer only ever increments and the
  handle counts equal the number of live handles, so wrap-around is not
  reachable in any execution the claims speak about.
* The raw-pointer `Cell` is modelled as an optional value with an atomic-swap
  style `take` (swap the contents with "null", return what was there).
* Concurrency is modelled by linearizing: a trace is an arbitrary
  interleaving of the atomic channel operations (`Op`), which is the
  sequentially-consistent abstraction of the lock-free code.
-/

namespace Tikv

open scoped List

/-- `u64::cmp` (three-way compare on naturals). -/
def natCmp (a b : Nat) : Ordering :=
  if a < b then .lt else if a = b then .eq else .gt

/-- Sort key of a queued item: `struct MapKey { priority: u64, sequence: u64 }`. -/
structure MapKey where
  priority : Nat
  sequence : Nat
deriving DecidableEq

/-- `impl Ord for MapKey`: compare priority first, tie-break on sequence. -/
def MapKey.cmp (a b : MapKey) : Ordering :=
  let ord := natCmp a.priority b.priority
  if ord = .eq then natCmp a.sequence b.sequence else ord

/-- The strict order induced by `MapKey::cmp` (priority ascending, then sequence). -/
def MapKey.lt (a b : MapKey) : Prop :=
  a.priority < b.priority ∨ (a.priority = b.priority ∧ a.sequence < b.sequence)

instance (a b : MapKey) : Decidable (MapKey.lt a b) :=
  inferInstanceAs (Decidable (_ ∨ _))

/-- `Cell<T>`: the single-consumption slot (an `AtomicPtr` in the source,
modelled as an optional value). -/
abbrev Cell (T : Type) : Type := Option T

/-- `Cell::new`: a slot holding `value`. -/
def Cell.new {T : Type} (value : T) : Cell T := some value

/-- `Cell::take`: swap the pointer with null and return what was held. -/
def Cell.take {T : Type} (c : Cell T) : Option T × Cell T := (c, none)

/-- `impl Drop for Cell` calls `take`; this is the value it releases. -/
def Cell.dropFrees {T : Type} (c : Cell T) : Option T := (Cell.take c).1

/-- Repeated `take` on one cell: the list of results of `n` successive takes. -/
def Cell.takes {T : Type} (c : Cell T) : Nat → List (Option T)
  | 0 => []
  | n + 1 =>
    let t := Cell.take c
    t.1 :: Cell.takes t.2 n

/-- State of `PriorityQueue<T>`: the ordered map, the disconnect flag
(guarding the condvar), the sequence generator and the live handle counts. -/
structure PQState (T : Type) where
  queue : List (MapKey × Cell T)
  disconnected : Bool
  sequencer : Nat
  senders : Nat
  receivers : Nat
deriving DecidableEq

/-- `PriorityQueue::new` (what `unbounded()` allocates): empty map, one
sender handle, one receiver handle. -/
def PQState.new (T : Type) : PQState T :=
  { queue := [], disconnected := false, sequencer := 0, senders := 1, receivers := 1 }

/-- `PriorityQueue::get_map_key`: pair the given priority with
`sequencer.fetch_add(1)` (returns the key and the advanced state). -/
def PQState.get_map_key {T : Type} (s : PQState T) (pri : Nat) : MapKey × PQState T :=
  (⟨pri, s.sequencer⟩, { s with sequencer := s.sequencer + 1 })

/-- `SkipMap::insert` on the sorted association list: place the new entry at
its ordered position, replacing an entry whose key compares equal. -/
def insertQ {T : Type} (k : MapKey) (c : Cell T) :
    List (MapKey × Cell T) → List (MapKey × Cell T)
  | [] => [(k, c)]
  | e :: rest =>
    match MapKey.cmp k e.1 with
    | .lt => (k, c) :: e :: rest
    | .eq => (k, c) :: rest
    | .gt => e :: insertQ k c rest

/-- `Sender::send`: fail (returning the message) if no receiver handle is
live, otherwise insert the message under a fresh key. -/
def PQState.send {T : Type} (s : PQState T) (msg : T) (pri : Nat) :
    Except T (PQState T) :=
  if s.receivers = 0 then .error msg
  else
    let kp := s.get_map_key pri
    .ok { kp.2 with queue := insertQ kp.1 (Cell.new msg) kp.2.queue }

/-- `crossbeam::channel::TrySendError`. -/
inductive TrySendErr (T : Type) where
  | Full (msg : T)
  | Disconnected (msg : T)
deriving DecidableEq

/-- `Sender::try_send`: `send`, wrapping failure as `Disconnected`. -/
def PQState.try_send {T : Type} (s : PQState T) (msg : T) (pri : Nat) :
    Except (TrySendErr T) (PQState T) :=
  (s.send msg pri).mapError TrySendErr.Disconnected

/-- Outcome of `Receiver::try_recv`; `crash` marks the (claimed unreachable)
panic of `take().unwrap()` on an empty cell. -/
inductive RecvRes (T : Type) where
  | ok (v : T)
  | empty
  | disconnected
  | crash
deriving DecidableEq

/-- `Receiver::try_recv`: pop the front entry and take its cell; on an empty
map report `disconnected` when no sender handle is live, else `empty`. -/
def PQState.try_recv {T : Type} (s : PQState T) : RecvRes T × PQState T :=
  match s.queue with
  | [] => if s.senders = 0 then (.disconnected, s) else (.empty, s)
  | e :: rest =>
    match (Cell.take e.2).1 with
    | some v => (.ok v, { s with queue := rest })
    | none => (.crash, { s with queue := rest })

/-- `Clone for Sender`: bump the sender count. -/
def PQState.senderClone {T : Type} (s : PQState T) : PQState T :=
  { s with senders := s.senders + 1 }

/-- `Drop for Sender`: decrement the count; if the old count was ≤ 1 this was
the last handle, so set the disconnect flag (and wake all receivers). -/
def PQState.senderDrop {T : Type} (s : PQState T) : PQState T :=
  if s.senders ≤ 1 then { s with senders := s.senders - 1, disconnected := true }
  else { s with senders := s.senders - 1 }

/-- `Clone for Receiver`: bump the receiver count. -/
def PQState.receiverClone {T : Type} (s : PQState T) : PQState T :=
  { s with receivers := s.receivers + 1 }

/-- `Drop for Receiver`: decrement the receiver count only. -/
def PQState.receiverDrop {T : Type} (s : PQState T) : PQState T :=
  { s with receivers := s.receivers - 1 }

/-- One decision of the `recv` loop when it does not sleep: `blocked` marks
the state where `recv` would wait on the condvar. -/
inductive RecvStepRes (T : Type) where
  | ok (v : T)
  | err
  | blocked
  | crash
deriving DecidableEq

/-- `Receiver::recv`, one pass of the loop: deliver on `ok`, return the
disconnect error on `disconnected` (or on `empty` with the flag already
set), otherwise block on the condvar. -/
def PQState.recvStep {T : Type} (s : PQState T) : RecvStepRes T × PQState T :=
  match s.try_recv with
  | (.ok v, s') => (.ok v, s')
  | (.disconnected, s') => (.err, s')
  | (.crash, s') => (.crash, s')
  | (.empty, s') => if s'.disconnected then (.err, s') else (.blocked, s')

/-- Values delivered by repeatedly calling `try_recv` until it stops
returning `ok` (it pops the front entry each time, so this walks the queue). -/
def drainList {T : Type} : List (MapKey × Cell T) → List T
  | [] => []
  | e :: rest =>
    match (Cell.take e.2).1 with
    | some v => v :: drainList rest
    | none => []

/-- Drain a channel with `try_recv` until no more `ok` results. -/
def PQState.drain {T : Type} (s : PQState T) : List T := drainList s.queue

/-- Run a sequence of `send (msg, pri)` calls (failed sends leave the state
unchanged, as in the source). -/
def sendAll {T : Type} (s : PQState T) : List (T × Nat) → PQState T
  | [] => s
  | mp :: rest =>
    match s.send mp.1 mp.2 with
    | .ok s' => sendAll s' rest
    | .error _ => sendAll s rest

/-- Specification-side tagging: the `i`-th sent message (counting from `n`)
paired with the key `(its priority, n + i)` the channel would allocate. -/
def keyedFrom {T : Type} (n : Nat) : List (T × Nat) → List (MapKey × T)
  | [] => []
  | mp :: rest => (⟨mp.2, n⟩, mp.1) :: keyedFrom (n + 1) rest

/-- Specification-side insertion into a (priority, sequence)-sorted list:
place `x` before the first strictly greater key. -/
def insertByKey {T : Type} (x : MapKey × T) :
    List (MapKey × T) → List (MapKey × T)
  | [] => [x]
  | y :: ys => if MapKey.lt x.1 y.1 then x :: y :: ys else y :: insertByKey x ys

/-- Specification-side sort by (priority ascending, sequence ascending). -/
def sortByKey {T : Type} (l : List (MapKey × T)) : List (MapKey × T) :=
  l.foldr insertByKey []

/-- The (key, value) pairs currently queued (cells that still hold a value). -/
def entriesOf {T : Type} (s : PQState T) : List (MapKey × T) :=
  s.queue.filterMap (fun e => (e.2 : Option T).map (fun v => (e.1, v)))

/-- Values currently queued, in queue order. -/
def qlist {T : Type} (s : PQState T) : List T :=
  s.queue.filterMap (fun e => (e.2 : Option T))

/-- Multiset of values currently queued. -/
def qvals {T : Type} (s : PQState T) : Multiset T :=
  (qlist s : List T)

/-- An atomic channel operation; a trace is an arbitrary interleaving of
operations issued by any number of producer and consumer threads. -/
inductive Op (T : Type) where
  | send (msg : T) (pri : Nat)
  | recv
  | sclone
  | sdrop
  | rclone
  | rdrop
deriving DecidableEq

/-- Observed history of a trace: final state, successfully sent values,
received values, and the keys allocated by successful sends. -/
structure TraceRes (T : Type) where
  state : PQState T
  sent : List T
  recvd : List T
  keys : List MapKey
deriving DecidableEq

/-- Step of the trace semantics. Lifecycle steps fire only when a live
handle exists (each Rust handle is dropped at most once). -/
def stepOp {T : Type} (r : TraceRes T) : Op T → TraceRes T
  | .send m p =>
    match r.state.send m p with
    | .ok s' =>
      { state := s', sent := r.sent ++ [m], recvd := r.recvd,
        keys := r.keys ++ [(r.state.get_map_key p).1] }
    | .error _ => r
  | .recv =>
    match r.state.try_recv with
    | (.ok v, s') => { r with state := s', recvd := r.recvd ++ [v] }
    | (_, s') => { r with state := s' }
  | .sclone => { r with state := r.state.senderClone }
  | .sdrop => { r with state := if r.state.senders = 0 then r.state else r.state.senderDrop }
  | .rclone => { r with state := r.state.receiverClone }
  | .rdrop => { r with state := if r.state.receivers = 0 then r.state else r.state.receiverDrop }

/-- The history of a fresh channel (`unbounded()`). -/
def initTrace (T : Type) : TraceRes T :=
  { state := PQState.new T, sent := [], recvd := [], keys := [] }

/-- Run an interleaved trace of operations on a fresh channel. -/
def runTrace {T : Type} (ops : List (Op T)) : TraceRes T :=
  ops.foldl stepOp (initTrace T)

/-- Every queued cell still holds its value. -/
def cellsFull {T : Type} (s : PQState T) : Prop :=
  ∀ e ∈ s.queue, (e.2 : Option T).isSome = true

/-- Every queued key was allocated by the sequencer (freshness of new keys). -/
def seqBound {T : Type} (s : PQState T) : Prop :=
  ∀ e ∈ s.queue, e.1.sequence < s.sequencer

/-- The queue is strictly sorted by the key order. -/
def sortedQ {T : Type} (s : PQState T) : Prop :=
  s.queue.Pairwise (fun a b => MapKey.lt a.1 b.1)

/-- Well-formedness invariant of a channel state. -/
def WF {T : Type} (s : PQState T) : Prop :=
  cellsFull s ∧ seqBound s ∧ sortedQ s

/-- Trace invariant: the state is well-formed, the successfully sent values
are a permutation of the received values plus the values still queued
(conservation), and the allocated keys have strictly increasing sequence
numbers, all below the current sequencer value. -/
def GoodT {T : Type} (r : TraceRes T) : Prop :=
  WF r.state ∧ r.sent ~ r.recvd ++ qlist r.state
    ∧ r.keys.Pairwise (fun a b => a.sequence < b.sequence)
    ∧ ∀ k ∈ r.keys, k.sequence < r.state.sequencer

/-- A message sent through a mailbox: an identifying payload and
`get_resource_consumptions()`, the optional (group, bytes) list in the
iteration order of the map. -/
structure MBMsg where
  pid : Nat
  groups : Option (List (String × Nat))
deriving DecidableEq

/-- Largest byte value declared in a consumption list. -/
def maxB (gs : List (String × Nat)) : Nat :=
  gs.foldr (fun g m => max g.2 m) 0

/-- Name of the first group of `gs` whose bytes equal `m`. -/
def firstWith (m : Nat) (gs : List (String × Nat)) : String :=
  ((gs.find? (fun g => g.2 == m)).map (fun g => g.1)).getD "default"

/-- The running (dominant group, max bytes) scan of `BasicMailbox::consume`:
update on a strictly larger byte count. -/
def domFold (dom : String) (mx : Nat) : List (String × Nat) → String × Nat
  | [] => (dom, mx)
  | g :: gs => if g.2 > mx then domFold g.1 g.2 gs else domFold dom mx gs

/-- Dominant group computed by the source's loop. -/
def msgDominantCode (gs : List (String × Nat)) : String :=
  (domFold "default" 0 gs).1

/-- Dominant-group rule in the claim's words: the (first-seen) group with the
largest byte charge; `"default"` only when no group is declared. -/
def msgDominantClaim (gs : List (String × Nat)) : String :=
  if gs.isEmpty then "default" else firstWith (maxB gs) gs

/-- Amended dominant-group rule: the first-seen group with the largest byte
charge when that charge is positive; `"default"` otherwise. -/
def msgDominantAmended (gs : List (String × Nat)) : String :=
  if 0 < maxB gs then firstWith (maxB gs) gs else "default"

/-- Modelled from the spec: `tikv_util::mpsc::LooseBoundedSender` is not part
of this excerpt. Per §6/§4.2 it is a soft-capacity sender: `force_send`
bypasses the capacity and fails only when disconnected; `try_send` fails
`Full` over capacity and `Disconnected` when torn down. -/
structure LooseSender (M : Type) where
  buf : List M
  cap : Nat
  conn : Bool
deriving DecidableEq

/-- Modelled from the spec: `LooseBoundedSender::force_send`. -/
def LooseSender.force_send {M : Type} (sd : LooseSender M) (m : M) :
    Except M (LooseSender M) :=
  if sd.conn then .ok { sd with buf := sd.buf ++ [m] } else .error m

/-- Modelled from the spec: `LooseBoundedSender::try_send`. -/
def LooseSender.try_send {M : Type} (sd : LooseSender M) (m : M) :
    Except (TrySendErr M) (LooseSender M) :=
  if sd.conn = false then .error (.Disconnected m)
  else if sd.cap ≤ sd.buf.length then .error (.Full m)
  else .ok { sd with buf := sd.buf ++ [m] }

/-- Ownership-token status: Idle / Scheduled (a.k.a. notified) / Closed. -/
inductive FsmStatus where
  | Idle
  | Scheduled
  | Closed
deriving DecidableEq

/-- Modelled from the spec: `batch-system::fsm::FsmState`, the Ownership
Token — an atomic status plus the optional boxed Fsm slot (the slot is
occupied exactly when the Fsm is idle, §3). -/
structure FsmState (F : Type) where
  status : FsmStatus
  slot : Option F
deriving DecidableEq

/-- Modelled from the spec: `FsmState::notify` — compare-and-swap Idle →
Scheduled; on success hand the Fsm (via `take_fsm`) to the scheduler, whose
hand-off list is threaded explicitly; no-op when Scheduled or Closed. -/
def FsmState.notify {F : Type} (st : FsmState F) (handoffs : List F) :
    FsmState F × List F :=
  if st.status = .Idle then
    ({ status := .Scheduled, slot := none }, handoffs ++ st.slot.toList)
  else (st, handoffs)

/-- `BasicMailbox`: the sender endpoint, the Fsm's ownership token and the
dominant-group cache (`last_msg_group`). -/
structure BasicMailbox (F : Type) where
  sender : LooseSender MBMsg
  state : FsmState F
  last_msg_group : String
deriving DecidableEq

/-- The loop body of `BasicMailbox::consume`: charge each (group, bytes)
pair to the resource controller (modelled as the list of charge events) while
tracking the running dominant group. -/
def consumeLoop (rc : List (String × Nat)) (dom : String) (mx : Nat) :
    List (String × Nat) → List (String × Nat) × String × Nat
  | [] => (rc, dom, mx)
  | g :: gs =>
    if g.2 > mx then consumeLoop (rc ++ [g]) g.1 g.2 gs
    else consumeLoop (rc ++ [g]) dom mx gs

/-- `BasicMailbox::consume`: charge every declared pair and update the
`last_msg_group` cache (to `"default"` when nothing is declared). -/
def BasicMailbox.consume {F : Type} (mb : BasicMailbox F)
    (rc : List (String × Nat)) (msg : MBMsg) :
    BasicMailbox F × List (String × Nat) :=
  match msg.groups with
  | some gs =>
    let out := consumeLoop rc "default" 0 gs
    ({ mb with last_msg_group := out.2.1 }, out.1)
  | none => ({ mb with last_msg_group := "default" }, rc)

/-- `BasicMailbox::force_send`: consume, then send (unbounded), then notify.
Returns (mailbox, resource-controller log, scheduler hand-offs, error). -/
def BasicMailbox.force_send {F : Type} (mb : BasicMailbox F)
    (rc : List (String × Nat)) (handoffs : List F) (msg : MBMsg) :
    BasicMailbox F × List (String × Nat) × List F × Option MBMsg :=
  let c := mb.consume rc msg
  match LooseSender.force_send c.1.sender msg with
  | .error m => (c.1, c.2, handoffs, some m)
  | .ok sd' =>
    let n := FsmState.notify c.1.state handoffs
    ({ c.1 with sender := sd', state := n.1 }, c.2, n.2, none)

/-- `BasicMailbox::try_send`: consume, then send respecting the soft
capacity, then notify. -/
def BasicMailbox.try_send {F : Type} (mb : BasicMailbox F)
    (rc : List (String × Nat)) (handoffs : List F) (msg : MBMsg) :
    BasicMailbox F × List (String × Nat) × List F × Option (TrySendErr MBMsg) :=
  let c := mb.consume rc msg
  match LooseSender.try_send c.1.sender msg with
  | .error e => (c.1, c.2, handoffs, some e)
  | .ok sd' =>
    let n := FsmState.notify c.1.state handoffs
    ({ c.1 with sender := sd', state := n.1 }, c.2, n.2, none)

theorem natCmp_eq_lt {a b : Nat} : natCmp a b = .lt ↔ a < b := by
  unfold natCmp; split_ifs <;> simp_all <;> omega

theorem natCmp_eq_eq {a b : Nat} : natCmp a b = .eq ↔ a = b := by
  unfold natCmp; split_ifs <;> simp_all <;> omega

theorem natCmp_eq_gt {a b : Nat} : natCmp a b = .gt ↔ b < a := by
  unfold natCmp; split_ifs <;> simp_all <;> omega

theorem MapKey.cmp_eq_lt {a b : MapKey} : MapKey.cmp a b = .lt ↔ MapKey.lt a b := by
  unfold MapKey.cmp MapKey.lt
  by_cases h : natCmp a.priority b.priority = .eq
  · have hp := natCmp_eq_eq.mp h
    rw [if_pos h]
    simp [natCmp_eq_lt, hp]
  · rw [if_neg h]
    constructor
    · intro hlt
      exact Or.inl (natCmp_eq_lt.mp hlt)
    · rintro (hp | ⟨hp, _⟩)
      · exact natCmp_eq_lt.mpr hp
      · exact absurd (natCmp_eq_eq.mpr hp) h

theorem MapKey.cmp_eq_eq {a b : MapKey} : MapKey.cmp a b = .eq ↔ a = b := by
  unfold MapKey.cmp
  by_cases h : natCmp a.priority b.priority = .eq
  · have hp := natCmp_eq_eq.mp h
    rw [if_pos h, natCmp_eq_eq]
    cases a; cases b
    simp_all
  · rw [if_neg h]
    constructor
    · intro hh
      exact absurd hh h
    · intro he
      exact absurd (natCmp_eq_eq.mpr (by rw [he])) h

theorem MapKey.cmp_eq_gt {a b : MapKey} : MapKey.cmp a b = .gt ↔ MapKey.lt b a := by
  unfold MapKey.cmp MapKey.lt
  by_cases h : natCmp a.priority b.priority = .eq
  · have hp := natCmp_eq_eq.mp h
    rw [if_pos h]
    simp [natCmp_eq_gt, hp]
  · rw [if_neg h]
    constructor
    · intro hgt
      exact Or.inl (natCmp_eq_gt.mp hgt)
    · rintro (hp | ⟨hp, _⟩)
      · exact natCmp_eq_gt.mpr hp
      · exact absurd (natCmp_eq_eq.mpr hp.symm) h

theorem MapKey.lt_trans {a b c : MapKey} (h₁ : MapKey.lt a b) (h₂ : MapKey.lt b c) :
    MapKey.lt a c := by
  unfold MapKey.lt at *; omega

theorem MapKey.lt_asymm {a b : MapKey} (h : MapKey.lt a b) : ¬ MapKey.lt b a := by
  unfold MapKey.lt at *; omega

theorem MapKey.lt_total {a b : MapKey} (h : a ≠ b) : MapKey.lt a b ∨ MapKey.lt b a := by
  cases a with
  | mk p₁ s₁ =>
    cases b with
    | mk p₂ s₂ =>
      simp only [ne_eq, MapKey.mk.injEq, not_and] at h
      simp only [MapKey.lt]
      by_cases hp : p₁ = p₂
      · subst hp
        have := h rfl
        omega
      · omega

theorem MapKey.ne_of_seq_ne {a b : MapKey} (h : a.sequence ≠ b.sequence) : a ≠ b := by
  intro he; exact h (by rw [he])

theorem insertQ_perm {T : Type} (k : MapKey) (c : Cell T) (l : List (MapKey × Cell T))
    (hk : ∀ e ∈ l, e.1 ≠ k) : insertQ k c l ~ (k, c) :: l := by
  induction l with
  | nil => exact List.Perm.refl _
  | cons e rest ih =>
    simp only [insertQ]
    split
    · exact List.Perm.refl _
    · rename_i h
      exact absurd (MapKey.cmp_eq_eq.mp h).symm (hk e (by simp))
    · rename_i h
      have hrest : insertQ k c rest ~ (k, c) :: rest :=
        ih (fun e' he' => hk e' (by simp [he']))
      calc e :: insertQ k c rest
          ~ e :: (k, c) :: rest := hrest.cons e
        _ ~ (k, c) :: e :: rest := List.Perm.swap _ _ _

theorem insertQ_mem {T : Type} {k : MapKey} {c : Cell T} {l : List (MapKey × Cell T)} :
    ∀ e ∈ insertQ k c l, e = (k, c) ∨ e ∈ l := by
  induction l with
  | nil => simp [insertQ]
  | cons e rest ih =>
    simp only [insertQ]
    split
    · intro x hx
      rcases List.mem_cons.mp hx with rfl | hx
      · exact Or.inl rfl
      · exact Or.inr hx
    · intro x hx
      rcases List.mem_cons.mp hx with rfl | hx
      · exact Or.inl rfl
      · exact Or.inr (List.mem_cons_of_mem _ hx)
    · intro x hx
      rcases List.mem_cons.mp hx with rfl | hx
      · exact Or.inr (List.mem_cons_self _ _)
      · rcases ih x hx with h | h
        · exact Or.inl h
        · exact Or.inr (List.mem_cons_of_mem _ h)

theorem insertQ_sorted {T : Type} (k : MapKey) (c : Cell T) {l : List (MapKey × Cell T)}
    (hs : l.Pairwise (fun a b => MapKey.lt a.1 b.1)) :
    (insertQ k c l).Pairwise (fun a b => MapKey.lt a.1 b.1) := by
  induction l with
  | nil => simp [insertQ]
  | cons e rest ih =>
    rcases List.pairwise_cons.mp hs with ⟨he, hrest⟩
    simp only [insertQ]
    split
    · rename_i h
      have hk : MapKey.lt k e.1 := MapKey.cmp_eq_lt.mp h
      refine List.pairwise_cons.mpr ⟨?_, hs⟩
      intro b hb
      rcases List.mem_cons.mp hb with rfl | hb
      · exact hk
      · exact MapKey.lt_trans hk (he b hb)
    · rename_i h
      have hk : k = e.1 := MapKey.cmp_eq_eq.mp h
      refine List.pairwise_cons.mpr ⟨?_, hrest⟩
      intro b hb
      rw [hk]
      exact he b hb
    · rename_i h
      have hk : MapKey.lt e.1 k := MapKey.cmp_eq_gt.mp h
      refine List.pairwise_cons.mpr ⟨?_, ih hrest⟩
      intro b hb
      rcases insertQ_mem b hb with rfl | hb
      · exact hk
      · exact he b hb

theorem insertQ_length {T : Type} (k : MapKey) (c : Cell T) (l : List (MapKey × Cell T))
    (hk : ∀ e ∈ l, e.1 ≠ k) : (insertQ k c l).length = l.length + 1 := by
  have := (insertQ_perm k c l hk).length_eq
  simpa using this

theorem send_ok {T : Type} {s : PQState T} (m : T) (p : Nat) (h : ¬ s.receivers = 0) :
    s.send m p = .ok { s with
      queue := insertQ ⟨p, s.sequencer⟩ (Cell.new m) s.queue,
      sequencer := s.sequencer + 1 } := by
  simp [PQState.send, PQState.get_map_key, h]

theorem send_error {T : Type} {s : PQState T} {m : T} {pri : Nat}
    (h : s.receivers = 0) : s.send m pri = .error m := by
  simp [PQState.send, h]

theorem WF_send {T : Type} {s s' : PQState T} {m : T} {pri : Nat}
    (hwf : WF s) (hok : s.send m pri = .ok s') : WF s' := by
  obtain ⟨hcf, hsb, hsq⟩ := hwf
  by_cases h : s.receivers = 0
  · rw [send_error h] at hok
    cases hok
  · rw [send_ok m pri h] at hok
    cases hok
    refine ⟨?_, ?_, insertQ_sorted _ _ hsq⟩
    · intro e he
      rcases insertQ_mem e he with rfl | he
      · rfl
      · exact hcf e he
    · intro e he
      rcases insertQ_mem e he with rfl | he
      · simp
      · have := hsb e he
        simp only []
        omega

theorem try_recv_nil {T : Type} {s : PQState T} (h : s.queue = []) :
    s.try_recv = (if s.senders = 0 then (.disconnected, s) else (.empty, s)) := by
  simp [PQState.try_recv, h]

theorem try_recv_cons {T : Type} {s : PQState T} {e : MapKey × Cell T}
    {rest : List (MapKey × Cell T)} (h : s.queue = e :: rest) (v : T)
    (hv : (e.2 : Option T) = some v) :
    s.try_recv = (.ok v, { s with queue := rest }) := by
  simp [PQState.try_recv, h, Cell.take, hv]

theorem WF_tail {T : Type} {s : PQState T} {e : MapKey × Cell T}
    {rest : List (MapKey × Cell T)} (hwf : WF s) (h : s.queue = e :: rest) :
    WF { s with queue := rest } := by
  obtain ⟨hcf, hsb, hsq⟩ := hwf
  refine ⟨?_, ?_, ?_⟩
  · intro x hx
    exact hcf x (by rw [h]; exact List.mem_cons_of_mem _ hx)
  · intro x hx
    exact hsb x (by rw [h]; exact List.mem_cons_of_mem _ hx)
  · unfold sortedQ at hsq ⊢
    rw [h] at hsq
    exact (List.pairwise_cons.mp hsq).2

theorem cell_some_of_mem {T : Type} {s : PQState T} (hwf : WF s)
    {e : MapKey × Cell T} (he : e ∈ s.queue) : ∃ v, (e.2 : Option T) = some v :=
  Option.isSome_iff_exists.mp (hwf.1 e he)

theorem WF_try_recv {T : Type} {s : PQState T} (hwf : WF s) : WF (s.try_recv).2 := by
  cases hq : s.queue with
  | nil =>
    rw [try_recv_nil hq]
    by_cases hs : s.senders = 0 <;> simp [hs] <;> exact hwf
  | cons e rest =>
    obtain ⟨v, hv⟩ := cell_some_of_mem hwf (by rw [hq]; exact List.mem_cons_self _ _)
    rw [try_recv_cons hq v hv]
    exact WF_tail hwf hq

theorem senderDrop_queue {T : Type} (s : PQState T) :
    (s.senderDrop).queue = s.queue ∧ (s.senderDrop).sequencer = s.sequencer ∧
      (s.senderDrop).receivers = s.receivers := by
  unfold PQState.senderDrop
  split <;> exact ⟨rfl, rfl, rfl⟩

theorem GoodT_same {T : Type} {r : TraceRes T} (hg : GoodT r) (s' : PQState T)
    (hq : s'.queue = r.state.queue) (hseq : s'.sequencer = r.state.sequencer) :
    GoodT { r with state := s' } := by
  obtain ⟨⟨hcf, hsb, hsq⟩, hperm, hkp, hkb⟩ := hg
  refine ⟨⟨?_, ?_, ?_⟩, ?_, hkp, ?_⟩
  · intro e he
    exact hcf e (hq ▸ he)
  · intro e he
    simp only []
    rw [hseq]
    exact hsb e (hq ▸ he)
  · unfold sortedQ
    simp only []
    rw [hq]
    exact hsq
  · simp only [qlist]
    rw [hq]
    exact hperm
  · intro k hk
    simp only []
    rw [hseq]
    exact hkb k hk

theorem qlist_insert_fresh {T : Type} {s : PQState T} (hsb : seqBound s) (m : T) (pri : Nat) :
    qlist { s with
      queue := insertQ ⟨pri, s.sequencer⟩ (Cell.new m) s.queue,
      sequencer := s.sequencer + 1 } ~ m :: qlist s := by
  have hfresh : ∀ e ∈ s.queue, e.1 ≠ (⟨pri, s.sequencer⟩ : MapKey) := by
    intro e he
    apply MapKey.ne_of_seq_ne
    have := hsb e he
    simp only []
    omega
  have hp := (insertQ_perm (⟨pri, s.sequencer⟩ : MapKey) (Cell.new m) s.queue hfresh).filterMap
    (fun e => (e.2 : Option T))
  simpa [qlist, Cell.new] using hp

theorem GoodT_step {T : Type} {r : TraceRes T} (hg : GoodT r) (op : Op T) :
    GoodT (stepOp r op) := by
  obtain ⟨hwf, hperm, hkp, hkb⟩ := hg
  cases op with
  | send m p =>
    by_cases h : r.state.receivers = 0
    · simp [stepOp, send_error h]
      exact ⟨hwf, hperm, hkp, hkb⟩
    · simp only [stepOp, send_ok m p h]
      refine ⟨WF_send hwf (send_ok m p h), ?_, ?_, ?_⟩
      · have h₁ : r.sent ++ [m] ~ (r.recvd ++ qlist r.state) ++ [m] :=
          hperm.append_right [m]
        have h₂ : (r.recvd ++ qlist r.state) ++ [m] ~ r.recvd ++ (m :: qlist r.state) := by
          rw [List.append_assoc]
          exact (List.perm_append_singleton m (qlist r.state)).append_left r.recvd
        have h₃ := (qlist_insert_fresh hwf.2.1 m p).symm.append_left r.recvd
        exact (h₁.trans h₂).trans h₃
      · simp only [PQState.get_map_key]
        refine List.pairwise_append.mpr ⟨hkp, List.pairwise_singleton _ _, ?_⟩
        intro a ha b hb
        rw [List.mem_singleton.mp hb]
        exact hkb a ha
      · intro k hk
        simp only [PQState.get_map_key] at hk
        rcases List.mem_append.mp hk with hk | hk
        · have := hkb k hk
          simp only []
          omega
        · rw [List.mem_singleton.mp hk]
          simp only []
          omega
  | recv =>
    cases hq : r.state.queue with
    | nil =>
      have hnil := try_recv_nil hq
      by_cases hs : r.state.senders = 0 <;>
        simp [stepOp, hnil, hs] <;> exact ⟨hwf, hperm, hkp, hkb⟩
    | cons e rest =>
      obtain ⟨v, hv⟩ := cell_some_of_mem hwf (by rw [hq]; exact List.mem_cons_self _ _)
      simp only [stepOp, try_recv_cons hq v hv]
      refine ⟨WF_tail hwf hq, ?_, hkp, ?_⟩
      · have hql : qlist r.state = v :: qlist { r.state with queue := rest } := by
          simp [qlist, hq, hv]
        have : r.sent ~ (r.recvd ++ [v]) ++ qlist { r.state with queue := rest } := by
          rw [List.append_assoc]
          simpa [← hql] using hperm
        exact this
      · intro k hk
        exact hkb k hk
  | sclone => exact GoodT_same ⟨hwf, hperm, hkp, hkb⟩ _ rfl rfl
  | sdrop =>
    by_cases h : r.state.senders = 0
    · simp only [stepOp, h, if_pos rfl]
      exact GoodT_same ⟨hwf, hperm, hkp, hkb⟩ _ rfl rfl
    · simp only [stepOp, if_neg h]
      exact GoodT_same ⟨hwf, hperm, hkp, hkb⟩ _ (senderDrop_queue r.state).1
        (senderDrop_queue r.state).2.1
  | rclone => exact GoodT_same ⟨hwf, hperm, hkp, hkb⟩ _ rfl rfl
  | rdrop =>
    by_cases h : r.state.receivers = 0
    · simp only [stepOp, h, if_pos rfl]
      exact GoodT_same ⟨hwf, hperm, hkp, hkb⟩ _ rfl rfl
    · simp only [stepOp, if_neg h]
      exact GoodT_same ⟨hwf, hperm, hkp, hkb⟩ _ rfl rfl

theorem GoodT_init (T : Type) : GoodT (initTrace T) := by
  refine ⟨⟨?_, ?_, ?_⟩, ?_, ?_, ?_⟩ <;>
    simp [initTrace, PQState.new, cellsFull, seqBound, sortedQ, qlist]

theorem GoodT_run {T : Type} (ops : List (Op T)) : GoodT (runTrace ops) := by
  have step : ∀ (l : List (Op T)) (r : TraceRes T), GoodT r → GoodT (l.foldl stepOp r) := by
    intro l
    induction l with
    | nil => intro r h; exact h
    | cons o rest ih => intro r h; exact ih _ (GoodT_step h o)
  exact step ops _ (GoodT_init T)

theorem WF_new (T : Type) : WF (PQState.new T) := by
  refine ⟨?_, ?_, ?_⟩ <;> simp [PQState.new, cellsFull, seqBound, sortedQ]

theorem entriesOf_insert_fresh {T : Type} {s : PQState T} (hsb : seqBound s)
    (m : T) (pri : Nat) :
    entriesOf { s with
      queue := insertQ ⟨pri, s.sequencer⟩ (Cell.new m) s.queue,
      sequencer := s.sequencer + 1 }
      ~ (⟨pri, s.sequencer⟩, m) :: entriesOf s := by
  have hfresh : ∀ e ∈ s.queue, e.1 ≠ (⟨pri, s.sequencer⟩ : MapKey) := by
    intro e he
    apply MapKey.ne_of_seq_ne
    have := hsb e he
    simp only []
    omega
  have hp := (insertQ_perm (⟨pri, s.sequencer⟩ : MapKey) (Cell.new m) s.queue hfresh).filterMap
    (fun e => (e.2 : Option T).map (fun v => (e.1, v)))
  simpa [entriesOf, Cell.new] using hp

theorem sendAll_spec {T : Type} :
    ∀ (msgs : List (T × Nat)) (s : PQState T), WF s → ¬ s.receivers = 0 →
      entriesOf (sendAll s msgs) ~ entriesOf s ++ keyedFrom s.sequencer msgs
        ∧ WF (sendAll s msgs) := by
  intro msgs
  induction msgs with
  | nil =>
    intro s hwf h
    exact ⟨by simp [sendAll, keyedFrom], hwf⟩
  | cons mp rest ih =>
    intro s hwf h
    simp only [sendAll, send_ok mp.1 mp.2 h]
    have hwf' := WF_send hwf (send_ok mp.1 mp.2 h)
    obtain ⟨ihp, ihw⟩ := ih _ hwf' h
    refine ⟨?_, ihw⟩
    have h₁ := entriesOf_insert_fresh hwf.2.1 mp.1 mp.2
    calc entriesOf (sendAll { s with
            queue := insertQ ⟨mp.2, s.sequencer⟩ (Cell.new mp.1) s.queue,
            sequencer := s.sequencer + 1 } rest)
        ~ entriesOf { s with
            queue := insertQ ⟨mp.2, s.sequencer⟩ (Cell.new mp.1) s.queue,
            sequencer := s.sequencer + 1 } ++ keyedFrom (s.sequencer + 1) rest := ihp
      _ ~ ((⟨mp.2, s.sequencer⟩, mp.1) :: entriesOf s) ++ keyedFrom (s.sequencer + 1) rest :=
          h₁.append_right _
      _ = (⟨mp.2, s.sequencer⟩, mp.1) :: (entriesOf s ++ keyedFrom (s.sequencer + 1) rest) := rfl
      _ ~ entriesOf s ++ ((⟨mp.2, s.sequencer⟩, mp.1) :: keyedFrom (s.sequencer + 1) rest) :=
          List.perm_middle.symm
      _ = entriesOf s ++ keyedFrom s.sequencer (mp :: rest) := by
          simp only [keyedFrom]

theorem entriesOf_sorted {T : Type} {s : PQState T} (hwf : WF s) :
    (entriesOf s).Pairwise (fun a b => MapKey.lt a.1 b.1) := by
  have hsq := hwf.2.2
  unfold sortedQ at hsq
  refine List.Pairwise.filterMap _ ?_ hsq
  intro a a' hr b hb b' hb'
  rcases Option.map_eq_some'.mp hb with ⟨v, hv, rfl⟩
  rcases Option.map_eq_some'.mp hb' with ⟨v', hv', rfl⟩
  exact hr

theorem keyedFrom_seq_lb {T : Type} :
    ∀ (l : List (T × Nat)) (n : Nat), ∀ e ∈ keyedFrom n l, n ≤ e.1.sequence := by
  intro l
  induction l with
  | nil =>
    intro n e he
    simp [keyedFrom] at he
  | cons mp rest ih =>
    intro n e he
    simp only [keyedFrom] at he
    rcases List.mem_cons.mp he with rfl | he
    · simp
    · have := ih (n + 1) e he
      omega

theorem keyedFrom_pairwise {T : Type} (l : List (T × Nat)) :
    ∀ (n : Nat), (keyedFrom n l).Pairwise (fun a b => a.1.sequence < b.1.sequence) := by
  induction l with
  | nil =>
    intro n
    simp [keyedFrom]
  | cons mp rest ih =>
    intro n
    simp only [keyedFrom]
    refine List.pairwise_cons.mpr ⟨?_, ih (n + 1)⟩
    intro b hb
    have := keyedFrom_seq_lb rest (n + 1) b hb
    simp only []
    omega

theorem insertByKey_perm {T : Type} (x : MapKey × T) (l : List (MapKey × T)) :
    insertByKey x l ~ x :: l := by
  induction l with
  | nil => exact .refl _
  | cons y ys ih =>
    simp only [insertByKey]
    split
    · exact .refl _
    · exact (ih.cons y).trans (List.Perm.swap _ _ _)

theorem sortByKey_perm {T : Type} (l : List (MapKey × T)) : sortByKey l ~ l := by
  induction l with
  | nil => exact .refl _
  | cons y ys ih =>
    have hstep : sortByKey (y :: ys) = insertByKey y (sortByKey ys) := rfl
    rw [hstep]
    exact (insertByKey_perm y _).trans (ih.cons y)

theorem insertByKey_sorted {T : Type} {x : MapKey × T} {l : List (MapKey × T)}
    (hs : l.Pairwise (fun a b => MapKey.lt a.1 b.1)) (hx : ∀ y ∈ l, x.1 ≠ y.1) :
    (insertByKey x l).Pairwise (fun a b => MapKey.lt a.1 b.1) := by
  induction l with
  | nil => simp [insertByKey]
  | cons y ys ih =>
    rcases List.pairwise_cons.mp hs with ⟨hy, hys⟩
    simp only [insertByKey]
    split
    · rename_i h
      refine List.pairwise_cons.mpr ⟨?_, hs⟩
      intro b hb
      rcases List.mem_cons.mp hb with rfl | hb
      · exact h
      · exact MapKey.lt_trans h (hy b hb)
    · rename_i h
      have hxy : MapKey.lt y.1 x.1 := by
        rcases MapKey.lt_total (hx y (List.mem_cons_self _ _)) with h' | h'
        · exact absurd h' h
        · exact h'
      refine List.pairwise_cons.mpr
        ⟨?_, ih hys (fun z hz => hx z (List.mem_cons_of_mem _ hz))⟩
      intro b hb
      rcases List.mem_cons.mp ((insertByKey_perm x ys).mem_iff.mp hb) with rfl | hb'
      · exact hxy
      · exact hy b hb'

theorem sortByKey_sorted {T : Type} {l : List (MapKey × T)}
    (hnd : l.Pairwise (fun a b => a.1 ≠ b.1)) :
    (sortByKey l).Pairwise (fun a b => MapKey.lt a.1 b.1) := by
  induction l with
  | nil => simp [sortByKey]
  | cons y ys ih =>
    rcases List.pairwise_cons.mp hnd with ⟨hy, hys⟩
    have hstep : sortByKey (y :: ys) = insertByKey y (sortByKey ys) := rfl
    rw [hstep]
    refine insertByKey_sorted (ih hys) ?_
    intro z hz
    exact hy z ((sortByKey_perm ys).mem_iff.mp hz)

theorem drainList_eq {T : Type} :
    ∀ (q : List (MapKey × Cell T)), (∀ e ∈ q, (e.2 : Option T).isSome = true) →
      drainList q = (q.filterMap (fun e => (e.2 : Option T).map (fun v => (e.1, v)))).map
        (fun e => e.2) := by
  intro q
  induction q with
  | nil => intro _; rfl
  | cons e rest ih =>
    intro hcf
    obtain ⟨v, hv⟩ := Option.isSome_iff_exists.mp (hcf e (List.mem_cons_self _ _))
    simp only [drainList, Cell.take, hv, List.filterMap_cons, Option.map_some', List.map_cons]
    rw [ih (fun x hx => hcf x (List.mem_cons_of_mem _ hx))]

theorem drain_eq {T : Type} {s : PQState T} (hcf : cellsFull s) :
    PQState.drain s = (entriesOf s).map (fun e => e.2) :=
  drainList_eq s.queue hcf

theorem drain_step {T : Type} {s : PQState T} (hwf : WF s) (hne : s.queue ≠ []) :
    ∃ v s', s.try_recv = (.ok v, s') ∧ PQState.drain s = v :: PQState.drain s' := by
  cases hq : s.queue with
  | nil => exact absurd hq hne
  | cons e rest =>
    obtain ⟨v, hv⟩ := cell_some_of_mem hwf (by rw [hq]; exact List.mem_cons_self _ _)
    refine ⟨v, _, try_recv_cons hq v hv, ?_⟩
    simp [PQState.drain, hq, drainList, Cell.take, hv]

theorem sendAll_new_entries {T : Type} (msgs : List (T × Nat)) :
    entriesOf (sendAll (PQState.new T) msgs) = sortByKey (keyedFrom 0 msgs)
      ∧ WF (sendAll (PQState.new T) msgs) := by
  obtain ⟨hp, hwf⟩ := sendAll_spec msgs (PQState.new T) (WF_new T) (by simp [PQState.new])
  have hp' : entriesOf (sendAll (PQState.new T) msgs) ~ keyedFrom 0 msgs := by
    simpa [entriesOf, PQState.new] using hp
  have hnd : (keyedFrom 0 msgs).Pairwise (fun a b => a.1 ≠ b.1) :=
    (keyedFrom_pairwise msgs 0).imp (fun hab => MapKey.ne_of_seq_ne (Nat.ne_of_lt hab))
  have hperm : entriesOf (sendAll (PQState.new T) msgs) ~ sortByKey (keyedFrom 0 msgs) :=
    hp'.trans (sortByKey_perm _).symm
  haveI : IsAntisymm (MapKey × T) (fun a b => MapKey.lt a.1 b.1) :=
    ⟨fun a b h₁ h₂ => absurd h₂ (MapKey.lt_asymm h₁)⟩
  exact ⟨List.eq_of_perm_of_sorted hperm (entriesOf_sorted hwf) (sortByKey_sorted hnd), hwf⟩

theorem consumeLoop_spec :
    ∀ (gs rc : List (String × Nat)) (dom : String) (mx : Nat),
      consumeLoop rc dom mx gs = (rc ++ gs, domFold dom mx gs) := by
  intro gs
  induction gs with
  | nil =>
    intro rc dom mx
    simp [consumeLoop, domFold]
  | cons g rest ih =>
    intro rc dom mx
    simp only [consumeLoop, domFold]
    by_cases h : g.2 > mx
    · rw [if_pos h, if_pos h, ih]
      simp
    · rw [if_neg h, if_neg h, ih]
      simp

theorem domFold_fst :
    ∀ (gs : List (String × Nat)) (dom : String) (mx : Nat),
      (domFold dom mx gs).1 = if mx < maxB gs then firstWith (maxB gs) gs else dom := by
  intro gs
  induction gs with
  | nil =>
    intro dom mx
    simp [domFold, maxB]
  | cons g rest ih =>
    intro dom mx
    have hmax : maxB (g :: rest) = max g.2 (maxB rest) := rfl
    simp only [domFold]
    by_cases h : g.2 > mx
    · rw [if_pos h, ih, hmax]
      by_cases h₂ : g.2 < maxB rest
      · have hM : max g.2 (maxB rest) = maxB rest := by omega
        rw [if_pos h₂, hM, if_pos (by omega)]
        unfold firstWith
        rw [List.find?_cons_of_neg _ (by simp; omega)]
      · have hM : max g.2 (maxB rest) = g.2 := by omega
        rw [if_neg h₂, hM, if_pos (by omega)]
        unfold firstWith
        rw [List.find?_cons_of_pos _ (by simp)]
        simp
    · rw [if_neg h, ih, hmax]
      by_cases h₂ : mx < maxB rest
      · have hM : max g.2 (maxB rest) = maxB rest := by omega
        rw [if_pos h₂, hM, if_pos (by omega)]
        unfold firstWith
        rw [List.find?_cons_of_neg _ (by simp; omega)]
      · rw [if_neg h₂, if_neg (by omega)]

theorem msgDominantCode_eq_amended (gs : List (String × Nat)) :
    msgDominantCode gs = msgDominantAmended gs := by
  unfold msgDominantCode msgDominantAmended
  rw [domFold_fst]

theorem consume_some {F : Type} (mb : BasicMailbox F) (rc : List (String × Nat))
    {msg : MBMsg} {gs : List (String × Nat)} (hg : msg.groups = some gs) :
    mb.consume rc msg = ({ mb with last_msg_group := msgDominantCode gs }, rc ++ gs) := by
  simp [BasicMailbox.consume, hg, consumeLoop_spec, msgDominantCode]

theorem consume_none {F : Type} (mb : BasicMailbox F) (rc : List (String × Nat))
    {msg : MBMsg} (hg : msg.groups = none) :
    mb.consume rc msg = ({ mb with last_msg_group := "default" }, rc) := by
  simp [BasicMailbox.consume, hg]

theorem consume_sender {F : Type} (mb : BasicMailbox F) (rc : List (String × Nat))
    (msg : MBMsg) : (mb.consume rc msg).1.sender = mb.sender
      ∧ (mb.consume rc msg).1.state = mb.state := by
  unfold BasicMailbox.consume
  cases msg.groups <;> exact ⟨rfl, rfl⟩

theorem force_send_parts {F : Type} (mb : BasicMailbox F) (rc : List (String × Nat))
    (h : List F) (msg : MBMsg) :
    (BasicMailbox.force_send mb rc h msg).2.1 = (mb.consume rc msg).2
      ∧ (BasicMailbox.force_send mb rc h msg).1.last_msg_group
          = (mb.consume rc msg).1.last_msg_group := by
  unfold BasicMailbox.force_send
  cases hr : LooseSender.force_send (mb.consume rc msg).1.sender msg <;> simp [hr]

theorem try_send_parts {F : Type} (mb : BasicMailbox F) (rc : List (String × Nat))
    (h : List F) (msg : MBMsg) :
    (BasicMailbox.try_send mb rc h msg).2.1 = (mb.consume rc msg).2
      ∧ (BasicMailbox.try_send mb rc h msg).1.last_msg_group
          = (mb.consume rc msg).1.last_msg_group := by
  unfold BasicMailbox.try_send
  cases hr : LooseSender.try_send (mb.consume rc msg).1.sender msg <;> simp [hr]

theorem force_send_fail {F : Type} (mb : BasicMailbox F) (rc : List (String × Nat))
    (h : List F) (msg : MBMsg) (hconn : mb.sender.conn = false) :
    BasicMailbox.force_send mb rc h msg
      = ((mb.consume rc msg).1, (mb.consume rc msg).2, h, some msg) := by
  have hs : LooseSender.force_send (mb.consume rc msg).1.sender msg = .error msg := by
    simp [LooseSender.force_send, (consume_sender mb rc msg).1, hconn]
  unfold BasicMailbox.force_send
  simp [hs]

theorem try_send_fail_disc {F : Type} (mb : BasicMailbox F) (rc : List (String × Nat))
    (h : List F) (msg : MBMsg) (hconn : mb.sender.conn = false) :
    BasicMailbox.try_send mb rc h msg
      = ((mb.consume rc msg).1, (mb.consume rc msg).2, h, some (.Disconnected msg)) := by
  have hs : LooseSender.try_send (mb.consume rc msg).1.sender msg
      = .error (.Disconnected msg) := by
    simp [LooseSender.try_send, (consume_sender mb rc msg).1, hconn]
  unfold BasicMailbox.try_send
  simp [hs]

theorem try_send_fail_full {F : Type} (mb : BasicMailbox F) (rc : List (String × Nat))
    (h : List F) (msg : MBMsg) (hconn : mb.sender.conn = true)
    (hcap : mb.sender.cap ≤ mb.sender.buf.length) :
    BasicMailbox.try_send mb rc h msg
      = ((mb.consume rc msg).1, (mb.consume rc msg).2, h, some (.Full msg)) := by
  have hs : LooseSender.try_send (mb.consume rc msg).1.sender msg = .error (.Full msg) := by
    simp [LooseSender.try_send, (consume_sender mb rc msg).1, hconn, hcap]
  unfold BasicMailbox.try_send
  simp [hs]

/-- Claim C1: for every sequence of sends on one priority channel followed by
receives, the receive order sorts items by ascending numeric priority value
and, among items with equal priority, preserves send order (the `i`-th send
is tagged with key `(priority, i)` and the output is the stable sort by that
key); in particular send(1, pri 1), send(2, pri 0), send(3, pri 2) is
received as 2, 1, 3. -/
theorem c1_priority_ordering :
    (∀ (T : Type) (msgs : List (T × Nat)),
      PQState.drain (sendAll (PQState.new T) msgs)
        = (sortByKey (keyedFrom 0 msgs)).map (fun e => e.2))
    ∧ PQState.drain (sendAll (PQState.new Nat) [(1, 1), (2, 0), (3, 2)]) = [2, 1, 3] := by
  constructor
  · intro T msgs
    obtain ⟨heq, hwf⟩ := sendAll_new_entries msgs
    rw [drain_eq hwf.1, heq]
  · rfl

/-- Claim C2: when the live receiver count is zero, `send` fails immediately
with the original message and `try_send` fails with the `Disconnected`
variant carrying the message; with a nonzero receiver count `send` succeeds,
so the failure is decided by the receiver reference count alone. -/
theorem c2_send_with_no_receiver :
    ∀ (T : Type) (s : PQState T) (m : T) (p : Nat),
      (s.receivers = 0 →
        s.send m p = .error m ∧ s.try_send m p = .error (.Disconnected m))
      ∧ (¬ s.receivers = 0 → ∃ s', s.send m p = .ok s') := by
  intro T s m p
  constructor
  · intro h
    refine ⟨send_error h, ?_⟩
    simp [PQState.try_send, send_error h, Except.mapError]
  · intro h
    exact ⟨_, send_ok m p h⟩

/-- Witness for C2 at concrete channel states (zero and one live receiver). -/
theorem c2_send_with_no_receiver_witness :
    ((⟨[], false, 0, 1, 0⟩ : PQState Nat).send 7 2 = .error 7
        ∧ (⟨[], false, 0, 1, 0⟩ : PQState Nat).try_send 7 2 = .error (.Disconnected 7))
      ∧ ∃ s', (PQState.new Nat).send 7 2 = .ok s' :=
  ⟨(c2_send_with_no_receiver Nat ⟨[], false, 0, 1, 0⟩ 7 2).1 rfl,
   (c2_send_with_no_receiver Nat (PQState.new Nat) 7 2).2 (by decide)⟩

/-- Claim C3: dropping the last sender leaves every queued item deliverable
(`try_recv` still pops and `drain` is unchanged), and on an empty queue
`try_recv` reports `disconnected` exactly when the live sender count is zero
and `empty` exactly when senders remain; `recv` then returns the disconnect
error only after the queue is drained. -/
theorem c3_sender_drop_drain :
    ∀ (T : Type) (s : PQState T),
      (s.senders = 1 →
        (s.senderDrop).senders = 0 ∧ (s.senderDrop).disconnected = true
          ∧ PQState.drain (s.senderDrop) = PQState.drain s)
      ∧ (WF s → ¬ s.queue = [] →
          ∃ v s', s.try_recv = (.ok v, s')
            ∧ PQState.drain s = v :: PQState.drain s')
      ∧ ((s.try_recv).1 = .disconnected ↔ s.queue = [] ∧ s.senders = 0)
      ∧ ((s.try_recv).1 = .empty ↔ s.queue = [] ∧ ¬ s.senders = 0)
      ∧ (s.queue = [] → s.senders = 0 → (s.recvStep).1 = .err) := by
  intro T s
  refine ⟨?_, ?_, ?_, ?_, ?_⟩
  · intro h
    unfold PQState.senderDrop
    rw [if_pos (by omega)]
    exact ⟨by simp [h], rfl, rfl⟩
  · intro hwf hne
    exact drain_step hwf hne
  · cases hq : s.queue with
    | nil =>
      by_cases hs : s.senders = 0 <;> simp [PQState.try_recv, hq, hs]
    | cons e rest =>
      cases he : (e.2 : Option T) <;> simp [PQState.try_recv, hq, Cell.take, he]
  · cases hq : s.queue with
    | nil =>
      by_cases hs : s.senders = 0 <;> simp [PQState.try_recv, hq, hs]
    | cons e rest =>
      cases he : (e.2 : Option T) <;> simp [PQState.try_recv, hq, Cell.take, he]
  · intro hq hs
    simp [PQState.recvStep, try_recv_nil hq, hs]

/-- Witness for C3: on an empty drained channel with no senders `try_recv`
reports `disconnected` and `recv` errors; with live senders it reports
`empty`; dropping the last sender of a fresh channel zeroes the count. -/
theorem c3_sender_drop_drain_witness :
    ((⟨[], true, 4, 0, 1⟩ : PQState Nat).try_recv).1 = .disconnected
      ∧ ((⟨[], false, 4, 3, 1⟩ : PQState Nat).try_recv).1 = .empty
      ∧ ((⟨[], true, 4, 0, 1⟩ : PQState Nat).recvStep).1 = .err
      ∧ ((PQState.new Nat).senderDrop).senders = 0 :=
  ⟨(c3_sender_drop_drain Nat ⟨[], true, 4, 0, 1⟩).2.2.1.mpr ⟨rfl, rfl⟩,
   (c3_sender_drop_drain Nat ⟨[], false, 4, 3, 1⟩).2.2.2.1.mpr ⟨rfl, by decide⟩,
   (c3_sender_drop_drain Nat ⟨[], true, 4, 0, 1⟩).2.2.2.2 rfl rfl,
   ((c3_sender_drop_drain Nat (PQState.new Nat)).1 rfl).1⟩

/-- Claim C4 (Ownership Token modelled from the spec): `notify` is a no-op
when the status is `Scheduled` or `Closed`; from `Idle` with an occupied
slot it transitions to `Scheduled`, empties the slot, and hands the Fsm to
the scheduler exactly once — a second back-to-back `notify` adds no further
hand-off. -/
theorem c4_notify_exactly_once :
    ∀ (F : Type) (st : FsmState F) (h : List F) (f : F),
      (st.status = .Scheduled ∨ st.status = .Closed → FsmState.notify st h = (st, h))
      ∧ (st.status = .Idle → st.slot = some f →
          (FsmState.notify st h).2 = h ++ [f]
          ∧ (FsmState.notify st h).1.status = .Scheduled
          ∧ (FsmState.notify st h).1.slot = none
          ∧ (FsmState.notify (FsmState.notify st h).1 (FsmState.notify st h).2).2
              = h ++ [f]) := by
  intro F st h f
  constructor
  · intro hst
    unfold FsmState.notify
    rcases hst with hst | hst <;> rw [hst] <;> simp
  · intro hid hslot
    simp [FsmState.notify, hid, hslot]

/-- Witness for C4: a `Scheduled` token ignores `notify`; two back-to-back
notifies of an idle token holding Fsm `5` hand off exactly `[5]`. -/
theorem c4_notify_exactly_once_witness :
    FsmState.notify (⟨.Scheduled, none⟩ : FsmState Nat) [] = (⟨.Scheduled, none⟩, [])
      ∧ (FsmState.notify (FsmState.notify (⟨.Idle, some 5⟩ : FsmState Nat) []).1
          (FsmState.notify (⟨.Idle, some 5⟩ : FsmState Nat) []).2).2 = [5] :=
  ⟨(c4_notify_exactly_once Nat ⟨.Scheduled, none⟩ [] 0).1 (Or.inl rfl),
   ((c4_notify_exactly_once Nat ⟨.Idle, some 5⟩ [] 5).2 rfl rfl).2.2.2⟩

/-- Claim C5, counterexample: for a message declaring a single zero-byte
charge `{a: 0}`, the claimed rule (cache := the group with the largest
charge in the message) yields `"a"`, but the code's scan (which only updates
on a strictly positive comparison against an initial maximum of 0) leaves
the cache at `"default"`. -/
theorem c5_resource_accounting_cex :
    (BasicMailbox.force_send
        (⟨⟨[], 8, true⟩, ⟨.Idle, some 0⟩, "default"⟩ : BasicMailbox Nat)
        [] [] ⟨0, some [("a", 0)]⟩).1.last_msg_group = "default"
      ∧ msgDominantClaim [("a", 0)] = "a"
      ∧ ("default" : String) ≠ "a" :=
  ⟨rfl, rfl, by decide⟩

/-- Claim C5 as amended: every send through a mailbox charges each declared
(group, bytes) pair to the resource controller in order, and sets the
dominant-group cache to the first-seen group with the largest *positive*
charge, falling back to `"default"` when nothing is declared or every
declared charge is zero. -/
theorem c5_resource_accounting :
    ∀ (F : Type) (mb : BasicMailbox F) (rc : List (String × Nat)) (h : List F)
      (msg : MBMsg) (gs : List (String × Nat)),
      (msg.groups = some gs →
        (BasicMailbox.force_send mb rc h msg).2.1 = rc ++ gs
        ∧ (BasicMailbox.force_send mb rc h msg).1.last_msg_group = msgDominantAmended gs
        ∧ (BasicMailbox.try_send mb rc h msg).2.1 = rc ++ gs
        ∧ (BasicMailbox.try_send mb rc h msg).1.last_msg_group = msgDominantAmended gs)
      ∧ (msg.groups = none →
        (BasicMailbox.force_send mb rc h msg).2.1 = rc
        ∧ (BasicMailbox.force_send mb rc h msg).1.last_msg_group = "default") := by
  intro F mb rc h msg gs
  constructor
  · intro hg
    have hc := consume_some mb rc hg
    obtain ⟨hf1, hf2⟩ := force_send_parts mb rc h msg
    obtain ⟨ht1, ht2⟩ := try_send_parts mb rc h msg
    rw [hc] at hf1 hf2 ht1 ht2
    simp [msgDominantCode_eq_amended] at hf1 hf2 ht1 ht2
    exact ⟨hf1, hf2, ht1, ht2⟩
  · intro hg
    have hc := consume_none mb rc hg
    obtain ⟨hf1, hf2⟩ := force_send_parts mb rc h msg
    rw [hc] at hf1 hf2
    simp at hf1 hf2
    exact ⟨hf1, hf2⟩

/-- Witness for C5 (amended): sending `{groupA: 10, groupB: 30}` charges
both pairs and sets the cache to `groupB`. -/
theorem c5_resource_accounting_witness :
    (BasicMailbox.force_send
        (⟨⟨[], 8, true⟩, ⟨.Idle, some 0⟩, "default"⟩ : BasicMailbox Nat)
        [] [] ⟨1, some [("groupA", 10), ("groupB", 30)]⟩).2.1
      = [("groupA", 10), ("groupB", 30)]
    ∧ (BasicMailbox.force_send
        (⟨⟨[], 8, true⟩, ⟨.Idle, some 0⟩, "default"⟩ : BasicMailbox Nat)
        [] [] ⟨1, some [("groupA", 10), ("groupB", 30)]⟩).1.last_msg_group
      = "groupB" := by
  have h := (c5_resource_accounting Nat
    ⟨⟨[], 8, true⟩, ⟨.Idle, some 0⟩, "default"⟩ [] []
    ⟨1, some [("groupA", 10), ("groupB", 30)]⟩ [("groupA", 10), ("groupB", 30)]).1 rfl
  refine ⟨by simpa using h.1, ?_⟩
  rw [h.2.1]
  rfl

/-- Claim C6: a Queue Slot created with a value yields that value on the
first `take`, nothing on every later `take` (`n + 1` successive takes give
exactly one success), and dropping a never-taken slot releases the held
item while dropping a taken slot releases nothing. -/
theorem c6_cell_take_once :
    ∀ (T : Type) (v : T) (n : Nat),
      Cell.take (Cell.new v) = (some v, (none : Cell T))
      ∧ Cell.takes (Cell.new v) (n + 1) = some v :: List.replicate n none
      ∧ Cell.dropFrees (Cell.new v) = some v
      ∧ Cell.dropFrees ((Cell.take (Cell.new v)).2) = none := by
  intro T v n
  have hn : ∀ (m : Nat), Cell.takes (none : Cell T) m = List.replicate m none := by
    intro m
    induction m with
    | zero => rfl
    | succ k ih => simp [Cell.takes, Cell.take, ih, List.replicate_succ]
  exact ⟨rfl, by simp [Cell.takes, Cell.take, Cell.new, hn], rfl, rfl⟩

/-- Claim C7: along any interleaved trace, the keys allocated by
`get_map_key` for successful sends have strictly increasing sequence
numbers (so no two sends produce equal keys), and a further send inserts
without overwriting: the queue grows by exactly one entry. -/
theorem c7_fresh_keys :
    ∀ (T : Type) (ops : List (Op T)) (m : T) (p : Nat),
      (runTrace ops).keys.Pairwise (fun a b => a.sequence < b.sequence)
      ∧ (¬ (runTrace ops).state.receivers = 0 →
          ∃ s', (runTrace ops).state.send m p = .ok s'
            ∧ s'.queue.length = (runTrace ops).state.queue.length + 1) := by
  intro T ops m p
  obtain ⟨hwf, _, hkp, _⟩ := GoodT_run ops
  refine ⟨hkp, ?_⟩
  intro h
  refine ⟨_, send_ok m p h, ?_⟩
  show (insertQ ⟨p, (runTrace ops).state.sequencer⟩ (Cell.new m)
    (runTrace ops).state.queue).length = (runTrace ops).state.queue.length + 1
  apply insertQ_length
  intro e he
  exact MapKey.ne_of_seq_ne (Nat.ne_of_lt (hwf.2.1 e he))

/-- Witness for C7 on the trace with one send: keys are increasing and a
second send extends the queue to length two. -/
theorem c7_fresh_keys_witness :
    (runTrace [Op.send (5 : Nat) 0]).keys.Pairwise (fun a b => a.sequence < b.sequence)
      ∧ ∃ s', (runTrace [Op.send (5 : Nat) 0]).state.send 6 0 = .ok s'
          ∧ s'.queue.length = (runTrace [Op.send (5 : Nat) 0]).state.queue.length + 1 :=
  ⟨(c7_fresh_keys Nat [Op.send 5 0] 6 0).1,
   (c7_fresh_keys Nat [Op.send 5 0] 6 0).2 (by decide)⟩

/-- Claim C8: `try_recv` never panics — in every state reachable by a trace,
a popped entry's slot still holds its value, so the `unwrap` on `take`
cannot hit the `None` branch: the outcome is always a delivery, `empty` or
`disconnected`, never the `crash` marker. -/
theorem c8_try_recv_no_panic :
    ∀ (T : Type) (ops : List (Op T)),
      (∃ v, ((runTrace ops).state.try_recv).1 = RecvRes.ok v)
        ∨ ((runTrace ops).state.try_recv).1 = RecvRes.empty
        ∨ ((runTrace ops).state.try_recv).1 = RecvRes.disconnected := by
  intro T ops
  obtain ⟨hwf, _, _, _⟩ := GoodT_run ops
  cases hq : (runTrace ops).state.queue with
  | nil =>
    rw [try_recv_nil hq]
    by_cases hs : (runTrace ops).state.senders = 0 <;> simp [hs]
  | cons e rest =>
    obtain ⟨v, hv⟩ := cell_some_of_mem hwf (by rw [hq]; exact List.mem_cons_self _ _)
    rw [try_recv_cons hq v hv]
    exact Or.inl ⟨v, rfl⟩

/-- Claim C9: along any interleaving of producer and consumer operations,
the multiset of successfully sent values equals the received values plus
the values still queued; once the queue is drained, delivered = sent (no
value lost, none delivered twice). -/
theorem c9_conservation :
    ∀ (T : Type) (ops : List (Op T)),
      ((runTrace ops).sent : Multiset T)
          = ((runTrace ops).recvd : Multiset T) + qvals (runTrace ops).state
      ∧ ((runTrace ops).state.queue = [] →
          ((runTrace ops).sent : Multiset T) = ((runTrace ops).recvd : Multiset T)) := by
  intro T ops
  obtain ⟨_, hperm, _, _⟩ := GoodT_run ops
  have hmain : ((runTrace ops).sent : Multiset T)
      = ((runTrace ops).recvd : Multiset T) + qvals (runTrace ops).state := by
    unfold qvals
    rw [Multiset.coe_add]
    exact Multiset.coe_eq_coe.mpr hperm
  refine ⟨hmain, ?_⟩
  intro hq
  rw [hmain]
  have hz : qvals (runTrace ops).state = 0 := by simp [qvals, qlist, hq]
  rw [hz, add_zero]

/-- Witness for C9: two producers' sends interleaved with two receives drain
the queue and deliver exactly the sent multiset. -/
theorem c9_conservation_witness :
    ((runTrace [Op.send (5 : Nat) 1, Op.send 6 0, Op.recv, Op.recv]).sent : Multiset Nat)
      = ((runTrace [Op.send (5 : Nat) 1, Op.send 6 0, Op.recv, Op.recv]).recvd
          : Multiset Nat) :=
  (c9_conservation Nat [Op.send 5 1, Op.send 6 0, Op.recv, Op.recv]).2 (by decide)

/-- Claim C10: when a mailbox send fails — `force_send` on a torn-down
sender, or `try_send` on a torn-down or full sender — the message's declared
consumption has already been charged and the dominant-group cache updated
(`consume` runs first), while the enqueue and the notify are skipped
(buffer and hand-off list unchanged) and the error carries the original
message. -/
theorem c10_charge_before_send :
    ∀ (F : Type) (mb : BasicMailbox F) (rc : List (String × Nat)) (h : List F)
      (msg : MBMsg),
      (mb.sender.conn = false →
        BasicMailbox.force_send mb rc h msg
          = ((mb.consume rc msg).1, (mb.consume rc msg).2, h, some msg)
        ∧ BasicMailbox.try_send mb rc h msg
          = ((mb.consume rc msg).1, (mb.consume rc msg).2, h, some (.Disconnected msg)))
      ∧ (mb.sender.conn = true → mb.sender.cap ≤ mb.sender.buf.length →
        BasicMailbox.try_send mb rc h msg
          = ((mb.consume rc msg).1, (mb.consume rc msg).2, h, some (.Full msg))) := by
  intro F mb rc h msg
  exact ⟨fun hc => ⟨force_send_fail mb rc h msg hc, try_send_fail_disc mb rc h msg hc⟩,
    fun hc hcap => try_send_fail_full mb rc h msg hc hcap⟩

/-- Witness for C10 at a torn-down mailbox and at a full mailbox. -/
theorem c10_charge_before_send_witness :
    BasicMailbox.force_send
        (⟨⟨[], 8, false⟩, ⟨.Idle, some 0⟩, "x"⟩ : BasicMailbox Nat)
        [] [] ⟨2, some [("g", 7)]⟩
      = (((⟨⟨[], 8, false⟩, ⟨.Idle, some 0⟩, "x"⟩ : BasicMailbox Nat).consume
            [] ⟨2, some [("g", 7)]⟩).1,
         ((⟨⟨[], 8, false⟩, ⟨.Idle, some 0⟩, "x"⟩ : BasicMailbox Nat).consume
            [] ⟨2, some [("g", 7)]⟩).2, [], some ⟨2, some [("g", 7)]⟩)
    ∧ BasicMailbox.try_send
        (⟨⟨[], 0, true⟩, ⟨.Idle, some 0⟩, "x"⟩ : BasicMailbox Nat)
        [] [] ⟨2, some [("g", 7)]⟩
      = (((⟨⟨[], 0, true⟩, ⟨.Idle, some 0⟩, "x"⟩ : BasicMailbox Nat).consume
            [] ⟨2, some [("g", 7)]⟩).1,
         ((⟨⟨[], 0, true⟩, ⟨.Idle, some 0⟩, "x"⟩ : BasicMailbox Nat).consume
            [] ⟨2, some [("g", 7)]⟩).2, [], some (.Full ⟨2, some [("g", 7)]⟩)) :=
  ⟨((c10_charge_before_send Nat ⟨⟨[], 8, false⟩, ⟨.Idle, some 0⟩, "x"⟩ [] []
      ⟨2, some [("g", 7)]⟩).1 rfl).1,
   (c10_charge_before_send Nat ⟨⟨[], 0, true⟩, ⟨.Idle, some 0⟩, "x"⟩ [] []
      ⟨2, some [("g", 7)]⟩).2 rfl (by decide)⟩

end Tikv
